import Mathlib

/-
Verification of the feed reconciliation engine (reader/core/updater.py and
reader/core/types.py): a shallow embedding of the value records and the
Updater decision functions, followed by theorems about the update pipeline.

Datetimes are modelled as natural numbers (`Time`); `None`-able fields are
`Option`s.  Python `assert` statements are modelled by returning `none`
(an `AssertionError` aborts the computation), so fallible functions return
`Option`.  Python truthiness of a datetime is `Option.isSome` (a `datetime`
object is always truthy), and truthiness of a list is non-emptiness.
-/

namespace Reader

abbrev Time := Nat

structure Content where
  value : String
  type : Option String := none
  language : Option String := none
deriving DecidableEq

structure Enclosure where
  href : String
  type : Option String := none
  length : Option Nat := none
deriving DecidableEq

structure Feed where
  url : String
  updated : Option Time := none
  title : Option String := none
  link : Option String := none
  author : Option String := none
  user_title : Option String := none
deriving DecidableEq

structure Entry where
  id : String
  updated : Option Time
  title : Option String := none
  link : Option String := none
  author : Option String := none
  published : Option Time := none
  summary : Option String := none
  content : List Content := []
  enclosures : List Enclosure := []
  read : Bool := false
  important : Bool := false
  feed : Option Feed := none
deriving DecidableEq

structure FeedForUpdate where
  url : String
  updated : Option Time
  http_etag : Option String
  http_last_modified : Option String
  stale : Bool
  last_updated : Option Time
deriving DecidableEq

structure EntryForUpdate where
  updated : Time
deriving DecidableEq

structure ParsedFeed where
  feed : Feed
  http_etag : Option String
  http_last_modified : Option String
deriving DecidableEq

structure ParseResult where
  parsed_feed : ParsedFeed
  entries : List Entry
deriving DecidableEq

def ParseResult.feed (r : ParseResult) : Feed := r.parsed_feed.feed

def ParseResult.http_etag (r : ParseResult) : Option String := r.parsed_feed.http_etag

def ParseResult.http_last_modified (r : ParseResult) : Option String :=
  r.parsed_feed.http_last_modified

structure FeedUpdateIntent where
  url : String
  feed : Option Feed
  http_etag : Option String
  http_last_modified : Option String
  last_updated : Time
deriving DecidableEq

structure EntryUpdateIntent where
  url : String
  entry : Entry
  last_updated : Time
  first_updated_epoch : Option Time
  feed_order : Nat
deriving DecidableEq

structure UpdatedEntry where
  entry : Entry
  new : Bool
deriving DecidableEq

structure UpdateResult where
  entries : List UpdatedEntry
deriving DecidableEq

structure Updater where
  old_feed : FeedForUpdate
  now : Time
  global_now : Time
deriving DecidableEq

/-- Construction of an `Updater`, including the `__post_init__` rule: a stale
feed has its `updated`, `http_etag` and `http_last_modified` discarded
in-memory for the run. -/
def mkUpdater (old_feed : FeedForUpdate) (now global_now : Time) : Updater :=
  if old_feed.stale then
    ⟨{ old_feed with updated := none, http_etag := none, http_last_modified := none },
      now, global_now⟩
  else
    ⟨old_feed, now, global_now⟩

def Updater.url (u : Updater) : String := u.old_feed.url

def Updater.stale (u : Updater) : Bool := u.old_feed.stale

/-- Embedding of `Updater.should_update_feed`.  Returns `none` when the
`assert not old.updated` in the `last_updated is None` branch fails. -/
def Updater.should_update_feed (u : Updater) (new : Feed) : Option Bool :=
  let old := u.old_feed
  let feed_was_updated : Option Bool :=
    if old.last_updated.isNone then
      if old.updated.isNone then some true else none
    else if new.updated.isNone then
      some true
    else
      some (match new.updated, old.updated with
        | some nu, some ou => ! decide (nu ≤ ou)
        | _, _ => true)
  feed_was_updated.map (fun b => u.stale || b)

/-- Embedding of `Updater.should_update_entry`: returns the resolved
`updated` timestamp (absent means skip) together with the `is_new` flag. -/
def Updater.should_update_entry (u : Updater) (new : Entry)
    (old : Option EntryForUpdate) : Option Time × Bool :=
  let old_updated := old.map EntryForUpdate.updated
  if u.stale then
    (new.updated, old.isNone)
  else if new.updated.isNone then
    (some (old_updated.getD u.now), old.isNone)
  else
    match old_updated, new.updated with
    | some ou, some nu =>
      if nu ≤ ou then (none, false) else (new.updated, old.isNone)
    | _, _ => (new.updated, old.isNone)

/-- Python `enumerate`, starting from a given index. -/
def enumerateFrom {α : Type} : Nat → List α → List (Nat × α)
  | _, [] => []
  | n, a :: as => (n, a) :: enumerateFrom (n + 1) as

/-- Python `enumerate`. -/
def enumerate {α : Type} (l : List α) : List (Nat × α) := enumerateFrom 0 l

/-- The body of the loop in `get_entries_to_update`, iterated over the
reversed enumerated pairs: `none` when the `assert new_entry.feed is None`
fails, otherwise the yielded `(EntryUpdateIntent, entry_new)` elements in
iteration order (an intent is yielded only when the resolved `updated` is
truthy, i.e. present). -/
def Updater.entriesLoop (u : Updater) :
    List (Nat × (Entry × Option EntryForUpdate)) →
      Option (List (EntryUpdateIntent × Bool))
  | [] => some []
  | (feed_order, (new_entry, old_entry)) :: rest =>
    if new_entry.feed.isSome then
      none
    else
      match u.should_update_entry new_entry old_entry with
      | (none, _) => u.entriesLoop rest
      | (some t, entry_new) =>
        (u.entriesLoop rest).map (fun l =>
          (⟨u.url, { new_entry with updated := some t }, u.now,
             if entry_new then some u.global_now else none, feed_order⟩,
           entry_new) :: l)

/-- Embedding of `Updater.get_entries_to_update`: iterate
`reversed(list(enumerate(pairs)))`, yielding an intent for every non-skipped
entry. -/
def Updater.get_entries_to_update (u : Updater)
    (pairs : List (Entry × Option EntryForUpdate)) :
    Option (List (EntryUpdateIntent × Bool)) :=
  u.entriesLoop (enumerate pairs).reverse

/-- What one iteration of the `get_entries_to_update` loop yields for one
enumerated pair (assuming the feed assertion passed). -/
def Updater.emitEntry (u : Updater) (p : Nat × (Entry × Option EntryForUpdate)) :
    Option (EntryUpdateIntent × Bool) :=
  match u.should_update_entry p.2.1 p.2.2 with
  | (none, _) => none
  | (some t, entry_new) =>
    some (⟨u.url, { p.2.1 with updated := some t }, u.now,
            if entry_new then some u.global_now else none, p.1⟩,
          entry_new)

/-- Embedding of `Updater.get_entry_pairs`: zip the parsed entries with the
storage lookups for their `(feed url, entry id)` keys.  The storage read
side is modelled as a lookup function, so the batched
`get_entries_for_update` call returns the positionally aligned list of
lookups. -/
def Updater.get_entry_pairs (u : Updater) (entries : List Entry)
    (store : String → String → Option EntryForUpdate) :
    List (Entry × Option EntryForUpdate) :=
  entries.zip ((entries.map (fun e => (u.url, e.id))).map (fun k => store k.1 k.2))

/-- Embedding of `Updater.get_feed_to_update`.  Outer `none` when
`should_update_feed` raises its assertion. -/
def Updater.get_feed_to_update (u : Updater) (parse_result : ParseResult)
    (entries_to_update : List (EntryUpdateIntent × Bool)) :
    Option (Option FeedUpdateIntent) :=
  let new_count := (entries_to_update.filter (fun p => p.2)).length
  let updated_count := entries_to_update.length - new_count
  match u.should_update_feed parse_result.feed with
  | none => none
  | some b =>
    if b then
      some (some ⟨u.url, some parse_result.feed, parse_result.http_etag,
        parse_result.http_last_modified, u.now⟩)
    else if new_count ≠ 0 ∨ updated_count ≠ 0 then
      some (some ⟨u.url, none, none, none, u.now⟩)
    else
      some none

/-- The outcome of the parser call: either the `NotModified` control outcome
or a parsed result.  A `ParseError` propagates out of `update` unchanged and
settles no storage call, so it needs no constructor here. -/
inductive ParseOutcome
  | notModified
  | ok (r : ParseResult)
deriving DecidableEq

/-- One call made to the storage collaborator, in order. -/
inductive StorageCall
  | getEntriesForUpdate (keys : List (String × String))
  | addOrUpdateEntries (intents : List EntryUpdateIntent)
  | updateFeed (url : String) (feed : Option Feed) (http_etag : Option String)
      (http_last_modified : Option String) (last_updated : Time)
deriving DecidableEq

/-- Embedding of `Updater.update`: the returned `UpdateResult` together with
the trace of storage calls, `none` when an assertion aborts the run. -/
def Updater.update (u : Updater) :
    ParseOutcome → (String → String → Option EntryForUpdate) →
      Option (UpdateResult × List StorageCall)
  | .notModified, _ =>
    some (⟨[]⟩, [.updateFeed u.url none none none u.now])
  | .ok parse_result, store =>
    match u.get_entries_to_update (u.get_entry_pairs parse_result.entries store) with
    | none => none
    | some entries_to_update =>
      match u.get_feed_to_update parse_result entries_to_update with
      | none => none
      | some feed_to_update =>
        let lookupCall :=
          StorageCall.getEntriesForUpdate
            (parse_result.entries.map (fun e => (u.url, e.id)))
        let entryCalls :=
          if entries_to_update.isEmpty then []
          else [StorageCall.addOrUpdateEntries (entries_to_update.map (fun p => p.1))]
        let feedCalls :=
          match feed_to_update with
          | some fi =>
            [StorageCall.updateFeed fi.url fi.feed fi.http_etag
              fi.http_last_modified fi.last_updated]
          | none => []
        some (⟨entries_to_update.map (fun p => ⟨p.1.entry, p.2⟩)⟩,
          [lookupCall] ++ entryCalls ++ feedCalls)

/-- Modelled from the spec: the storage write side is not under `src/`; per
the interface contract, `add_or_update_entries` upserts one entry record per
intent, keyed by `(feed url, entry id)`, and the stored projection used for
comparison is just the entry's resolved `updated` timestamp.  One upsert. -/
def upsertEntry (store : String → String → Option EntryForUpdate)
    (i : EntryUpdateIntent) : String → String → Option EntryForUpdate :=
  fun u id =>
    if u = i.url ∧ id = i.entry.id then some ⟨i.entry.updated.getD 0⟩ else store u id

/-- Modelled from the spec: sequential upsert of a batch of entry intents
(later intents shadow earlier ones for the same key). -/
def persistEntries (store : String → String → Option EntryForUpdate) :
    List EntryUpdateIntent → (String → String → Option EntryForUpdate)
  | [] => store
  | i :: rest => persistEntries (upsertEntry store i) rest

/-- Modelled from the spec: the effect of `update_feed` on the stored
`FeedForUpdate` record — absent intent leaves the record alone; an intent
writes the validators and `last_updated`, and writes the feed metadata
(`updated`) only when the intent carries a feed (absent feed means "do not
touch metadata").  The `stale` flag has a storage-owned lifecycle outside
this core, so it is left unchanged here. -/
def persistFeed (old : FeedForUpdate) : Option FeedUpdateIntent → FeedForUpdate
  | none => old
  | some fi =>
    { old with
        updated := match fi.feed with
          | some f => f.updated
          | none => old.updated,
        http_etag := fi.http_etag,
        http_last_modified := fi.http_last_modified,
        last_updated := some fi.last_updated }

/-- Modelled from the spec: the storage state after one successful
reconciliation run over a parsed snapshot — the stored feed record and the
stored entry lookup, obtained by applying the run's intents to the state the
run started from.  The run's in-memory stale clearing is not persisted, so
the intents apply to the original `old_feed` record. -/
def runPersist (old_feed : FeedForUpdate) (now global_now : Time)
    (pr : ParseResult) (store : String → String → Option EntryForUpdate) :
    Option (FeedForUpdate × (String → String → Option EntryForUpdate)) :=
  let u := mkUpdater old_feed now global_now
  match u.get_entries_to_update (u.get_entry_pairs pr.entries store) with
  | none => none
  | some ents =>
    match u.get_feed_to_update pr ents with
    | none => none
    | some fi =>
      some (persistFeed old_feed fi, persistEntries store (ents.map (fun p => p.1)))

theorem enumerateFrom_mem_iff {α : Type} (l : List α) :
    ∀ (n : Nat) (p : Nat × α),
      p ∈ enumerateFrom n l ↔ n ≤ p.1 ∧ l[p.1 - n]? = some p.2 := by
  induction l with
  | nil => intro n p; simp [enumerateFrom]
  | cons a as ih =>
    intro n p
    simp only [enumerateFrom, List.mem_cons, ih (n + 1) p]
    constructor
    · rintro (rfl | ⟨h1, h2⟩)
      · simp
      · refine ⟨by omega, ?_⟩
        have : p.1 - n = (p.1 - (n + 1)) + 1 := by omega
        rw [this, List.getElem?_cons_succ]
        exact h2
    · rintro ⟨h1, h2⟩
      rcases Nat.eq_or_lt_of_le h1 with h | h
      · left
        have : p.1 - n = 0 := by omega
        rw [this, List.getElem?_cons_zero] at h2
        obtain ⟨p1, p2⟩ := p
        simp at h2 ⊢
        exact ⟨h.symm, h2.symm⟩
      · right
        refine ⟨by omega, ?_⟩
        have : p.1 - n = (p.1 - (n + 1)) + 1 := by omega
        rw [this, List.getElem?_cons_succ] at h2
        exact h2

theorem enumerateFrom_map {α β : Type} (f : α → β) (l : List α) :
    ∀ n, enumerateFrom n (l.map f) = (enumerateFrom n l).map (fun p => (p.1, f p.2)) := by
  induction l with
  | nil => intro n; rfl
  | cons a as ih => intro n; simp [enumerateFrom, ih (n + 1)]

theorem map_snd_enumerateFrom {α : Type} (l : List α) :
    ∀ n, (enumerateFrom n l).map Prod.snd = l := by
  induction l with
  | nil => intro n; rfl
  | cons a as ih => intro n; simp [enumerateFrom, ih (n + 1)]

theorem length_enumerateFrom {α : Type} (l : List α) :
    ∀ n, (enumerateFrom n l).length = l.length := by
  induction l with
  | nil => intro n; rfl
  | cons a as ih => intro n; simp [enumerateFrom, ih (n + 1)]

theorem zip_self_map {α β : Type} (f : α → β) :
    ∀ l : List α, l.zip (l.map f) = l.map (fun a => (a, f a))
  | [] => rfl
  | a :: as => by simp [List.zip_cons_cons, zip_self_map f as]

theorem get_entry_pairs_eq_map (u : Updater) (entries : List Entry)
    (store : String → String → Option EntryForUpdate) :
    u.get_entry_pairs entries store =
      entries.map (fun e => (e, store u.url e.id)) := by
  unfold Updater.get_entry_pairs
  rw [List.map_map]
  have := zip_self_map (fun e : Entry => store u.url e.id) entries
  simpa [Function.comp] using this

theorem entriesLoop_eq_filterMap (u : Updater)
    (L : List (Nat × (Entry × Option EntryForUpdate)))
    (hfeed : ∀ p ∈ L, (p.2.1 : Entry).feed = none) :
    u.entriesLoop L = some (L.filterMap u.emitEntry) := by
  induction L with
  | nil => rfl
  | cons p rest ih =>
    obtain ⟨fo, e, o⟩ := p
    have hfe : e.feed = none := hfeed (fo, e, o) (List.mem_cons_self _ _)
    have hrest : ∀ p ∈ rest, (p.2.1 : Entry).feed = none := by
      intro q hq; exact hfeed q (List.mem_cons_of_mem _ hq)
    unfold Updater.entriesLoop
    rw [hfe]
    simp only [Option.isSome_none, Bool.false_eq_true, if_false]
    cases hsue : u.should_update_entry e o with
    | mk t n =>
      cases t with
      | none =>
        rw [ih hrest, List.filterMap_cons]
        have : u.emitEntry (fo, e, o) = none := by
          unfold Updater.emitEntry
          rw [hsue]
        rw [this]
      | some t0 =>
        rw [ih hrest]
        have he : u.emitEntry (fo, e, o) =
            some (⟨u.url, { e with updated := some t0 }, u.now,
              if n then some u.global_now else none, fo⟩, n) := by
          unfold Updater.emitEntry
          rw [hsue]
        rw [hfe] at he
        simp only [List.filterMap_cons, he, Option.map_some']

theorem should_update_entry_stale (u : Updater) (e : Entry) (o : Option EntryForUpdate)
    (hs : u.stale = true) :
    u.should_update_entry e o = (e.updated, o.isNone) := by
  unfold Updater.should_update_entry
  rw [hs]
  simp

theorem should_update_entry_no_old (u : Updater) (e : Entry) (t0 : Time)
    (h : e.updated = some t0) :
    u.should_update_entry e none = (some t0, true) := by
  unfold Updater.should_update_entry
  cases hs : u.stale <;> simp [h, hs]

theorem should_update_entry_skip (u : Updater) (e : Entry) (r : EntryForUpdate)
    (t0 : Time) (hs : u.stale = false) (h : e.updated = some t0)
    (hle : t0 ≤ r.updated) :
    u.should_update_entry e (some r) = (none, false) := by
  unfold Updater.should_update_entry
  simp [hs, h, hle]

theorem should_update_entry_newer (u : Updater) (e : Entry) (r : EntryForUpdate)
    (t0 : Time) (hs : u.stale = false) (h : e.updated = some t0)
    (hgt : ¬ t0 ≤ r.updated) :
    u.should_update_entry e (some r) = (some t0, false) := by
  unfold Updater.should_update_entry
  simp [hs, h, hgt]

theorem should_update_entry_absent_updated (u : Updater) (e : Entry)
    (o : Option EntryForUpdate) (hs : u.stale = false) (h : e.updated = none) :
    u.should_update_entry e o =
      (some ((o.map EntryForUpdate.updated).getD u.now), o.isNone) := by
  unfold Updater.should_update_entry
  simp [hs, h]

theorem emitEntry_eq_some (u : Updater) (p : Nat × (Entry × Option EntryForUpdate))
    (q : EntryUpdateIntent × Bool) (h : u.emitEntry p = some q) :
    ∃ t, u.should_update_entry p.2.1 p.2.2 = (some t, q.2) ∧
      q.1 = ⟨u.url, { p.2.1 with updated := some t }, u.now,
        if q.2 then some u.global_now else none, p.1⟩ := by
  unfold Updater.emitEntry at h
  cases hsue : u.should_update_entry p.2.1 p.2.2 with
  | mk t n =>
    rw [hsue] at h
    cases t with
    | none => simp at h
    | some t0 =>
      simp only [Option.some.injEq] at h
      subst h
      exact ⟨t0, rfl, rfl⟩

theorem mem_entries_to_update (u : Updater)
    (pairs : List (Entry × Option EntryForUpdate))
    (l : List (EntryUpdateIntent × Bool))
    (hfeed : ∀ p ∈ pairs, (p.1 : Entry).feed = none)
    (h : u.get_entries_to_update pairs = some l) :
    ∀ q ∈ l, ∃ h2 : q.1.feed_order < pairs.length,
      u.emitEntry (q.1.feed_order, pairs[q.1.feed_order]) = some q := by
  have hfe : ∀ p ∈ (enumerate pairs).reverse, (p.2.1 : Entry).feed = none := by
    intro p hp
    rw [List.mem_reverse, enumerate, enumerateFrom_mem_iff] at hp
    obtain ⟨-, hget⟩ := hp
    simp only [Nat.sub_zero] at hget
    obtain ⟨hlt, hval⟩ := List.getElem?_eq_some.mp hget
    exact hfeed p.2 (hval ▸ List.getElem_mem hlt)
  rw [Updater.get_entries_to_update, entriesLoop_eq_filterMap u _ hfe,
    Option.some.injEq] at h
  intro q hq
  rw [← h, List.mem_filterMap] at hq
  obtain ⟨⟨a1, a2⟩, ha, hemit⟩ := hq
  rw [List.mem_reverse, enumerate, enumerateFrom_mem_iff] at ha
  obtain ⟨-, hget⟩ := ha
  simp only [Nat.sub_zero] at hget
  obtain ⟨hlt, hval⟩ := List.getElem?_eq_some.mp hget
  obtain ⟨t, -, hq1⟩ := emitEntry_eq_some u (a1, a2) q hemit
  have hfo : q.1.feed_order = a1 := by rw [hq1]
  subst hfo
  exact ⟨hlt, by rw [hval]; exact hemit⟩

theorem entries_to_update_mem_of_emit (u : Updater)
    (pairs : List (Entry × Option EntryForUpdate))
    (l : List (EntryUpdateIntent × Bool))
    (hfeed : ∀ p ∈ pairs, (p.1 : Entry).feed = none)
    (h : u.get_entries_to_update pairs = some l)
    (i : Nat) (hi : i < pairs.length) (q : EntryUpdateIntent × Bool)
    (hemit : u.emitEntry (i, pairs[i]) = some q) :
    q ∈ l := by
  have hfe : ∀ p ∈ (enumerate pairs).reverse, (p.2.1 : Entry).feed = none := by
    intro p hp
    rw [List.mem_reverse, enumerate, enumerateFrom_mem_iff] at hp
    obtain ⟨-, hget⟩ := hp
    simp only [Nat.sub_zero] at hget
    obtain ⟨hlt, hval⟩ := List.getElem?_eq_some.mp hget
    exact hfeed p.2 (hval ▸ List.getElem_mem hlt)
  rw [Updater.get_entries_to_update, entriesLoop_eq_filterMap u _ hfe,
    Option.some.injEq] at h
  rw [← h, List.mem_filterMap]
  refine ⟨(i, pairs[i]), ?_, hemit⟩
  rw [List.mem_reverse, enumerate, enumerateFrom_mem_iff]
  exact ⟨Nat.zero_le _, by simp [List.getElem?_eq_getElem hi]⟩

theorem persistEntries_eq_of_no_match :
    ∀ (ints : List EntryUpdateIntent)
      (store : String → String → Option EntryForUpdate) (u id : String),
      (∀ i ∈ ints, ¬(u = i.url ∧ id = i.entry.id)) →
      persistEntries store ints u id = store u id
  | [], _, _, _, _ => rfl
  | j :: rest, store, u, id, h => by
    unfold persistEntries
    rw [persistEntries_eq_of_no_match rest (upsertEntry store j) u id
      (fun i hi => h i (List.mem_cons_of_mem _ hi))]
    unfold upsertEntry
    rw [if_neg (h j (List.mem_cons_self _ _))]

theorem persistEntries_eq_of_unique :
    ∀ (ints : List EntryUpdateIntent)
      (store : String → String → Option EntryForUpdate) (u id : String)
      (i : EntryUpdateIntent),
      i ∈ ints → i.url = u → i.entry.id = id →
      (∀ j ∈ ints, j.url = u → j.entry.id = id → j = i) →
      persistEntries store ints u id = some ⟨i.entry.updated.getD 0⟩
  | [], _, _, _, _, hmem, _, _, _ => absurd hmem (List.not_mem_nil _)
  | j :: rest, store, u, id, i, hmem, hu, hid, huniq => by
    unfold persistEntries
    by_cases hrest : ∃ k ∈ rest, k.url = u ∧ k.entry.id = id
    · obtain ⟨k, hk, hku, hkid⟩ := hrest
      have hki : k = i := huniq k (List.mem_cons_of_mem _ hk) hku hkid
      subst hki
      exact persistEntries_eq_of_unique rest (upsertEntry store j) u id k hk hku hkid
        (fun m hm hmu hmid => huniq m (List.mem_cons_of_mem _ hm) hmu hmid)
    · have hnm : ∀ m ∈ rest, ¬(u = m.url ∧ id = m.entry.id) := by
        intro m hm hc
        exact hrest ⟨m, hm, hc.1.symm, hc.2.symm⟩
      rw [persistEntries_eq_of_no_match rest (upsertEntry store j) u id hnm]
      have hij : i = j := by
        rcases List.mem_cons.mp hmem with h | h
        · exact h
        · exact absurd ⟨i, h, hu, hid⟩ hrest
      subst hij
      unfold upsertEntry
      rw [if_pos ⟨hu.symm, hid.symm⟩]

theorem should_update_feed_true_of_no_last_updated (u : Updater) (f : Feed)
    (h1 : u.old_feed.last_updated = none) (h2 : u.old_feed.updated = none) :
    u.should_update_feed f = some true := by
  unfold Updater.should_update_feed
  simp [h1, h2]

theorem should_update_feed_true_of_no_updated (u : Updater) (f : Feed) (lu : Time)
    (h1 : u.old_feed.last_updated = some lu) (h2 : f.updated = none) :
    u.should_update_feed f = some true := by
  unfold Updater.should_update_feed
  simp [h1, h2]

theorem should_update_feed_compare (u : Updater) (f : Feed) (lu nu : Time)
    (h1 : u.old_feed.last_updated = some lu) (h2 : f.updated = some nu) :
    u.should_update_feed f =
      some (u.stale ||
        (match u.old_feed.updated with
          | some ou => ! decide (nu ≤ ou)
          | none => true)) := by
  unfold Updater.should_update_feed
  cases h3 : u.old_feed.updated <;> simp [h1, h2, h3]

theorem should_update_feed_false_elim (u : Updater) (f : Feed)
    (h : u.should_update_feed f = some false) :
    u.stale = false ∧ u.old_feed.last_updated.isSome ∧
      (∀ nu, f.updated = some nu →
        ∃ ou, u.old_feed.updated = some ou ∧ nu ≤ ou) := by
  unfold Updater.should_update_feed at h
  by_cases h1 : u.old_feed.last_updated.isNone
  · by_cases h2 : u.old_feed.updated.isNone <;> simp [h1, h2] at h
  · by_cases h2 : f.updated.isNone
    · simp [h1, h2] at h
    · cases hnu : f.updated with
      | none => rw [hnu] at h2; simp at h2
      | some nu =>
        cases hou : u.old_feed.updated with
        | none => simp [h1, hnu, hou] at h
        | some ou =>
          simp only [h1, hnu, hou, if_false, Option.isNone_some, Bool.false_eq_true,
            Option.map_some', Option.some.injEq, Bool.or_eq_false_iff] at h
          refine ⟨h.1, ?_, ?_⟩
          · cases hh : u.old_feed.last_updated with
            | none => rw [hh] at h1; simp at h1
            | some v => rfl
          · intro nu2 hnu2
            obtain rfl : nu = nu2 := Option.some.inj hnu2
            refine ⟨ou, rfl, ?_⟩
            have h2le := h.2
            simp at h2le
            exact h2le

theorem mkUpdater_stale (old : FeedForUpdate) (n g : Time) :
    (mkUpdater old n g).stale = old.stale := by
  unfold mkUpdater Updater.stale
  split <;> rfl

theorem mkUpdater_url (old : FeedForUpdate) (n g : Time) :
    (mkUpdater old n g).url = old.url := by
  unfold mkUpdater Updater.url
  split <;> rfl

theorem mkUpdater_now (old : FeedForUpdate) (n g : Time) :
    (mkUpdater old n g).now = n := by
  unfold mkUpdater
  split <;> rfl

theorem mkUpdater_global_now (old : FeedForUpdate) (n g : Time) :
    (mkUpdater old n g).global_now = g := by
  unfold mkUpdater
  split <;> rfl

theorem mkUpdater_last_updated (old : FeedForUpdate) (n g : Time) :
    (mkUpdater old n g).old_feed.last_updated = old.last_updated := by
  unfold mkUpdater
  split <;> rfl

theorem mkUpdater_updated_of_stale (old : FeedForUpdate) (n g : Time)
    (h : old.stale = true) :
    (mkUpdater old n g).old_feed.updated = none := by
  unfold mkUpdater
  rw [if_pos h]

theorem mkUpdater_of_not_stale (old : FeedForUpdate) (n g : Time)
    (h : old.stale = false) :
    mkUpdater old n g = ⟨old, n, g⟩ := by
  unfold mkUpdater
  rw [h]
  simp

theorem should_update_entry_isNew (u : Updater) (e : Entry)
    (o : Option EntryForUpdate) (t : Time) (n : Bool)
    (h : u.should_update_entry e o = (some t, n)) : n = o.isNone := by
  by_cases hs : u.stale = true
  · rw [should_update_entry_stale u e o hs, Prod.mk.injEq] at h
    exact h.2.symm
  · have hs2 : u.stale = false := by revert hs; cases u.stale <;> simp
    cases he : e.updated with
    | none =>
      rw [should_update_entry_absent_updated u e o hs2 he, Prod.mk.injEq] at h
      exact h.2.symm
    | some t0 =>
      cases o with
      | none =>
        rw [should_update_entry_no_old u e t0 he, Prod.mk.injEq] at h
        exact h.2.symm
      | some r =>
        by_cases hle : t0 ≤ r.updated
        · rw [should_update_entry_skip u e r t0 hs2 he hle, Prod.mk.injEq] at h
          exact absurd h.1 (by simp)
        · rw [should_update_entry_newer u e r t0 hs2 he hle, Prod.mk.injEq] at h
          exact h.2.symm

theorem length_filterMap_of_all_some {α β : Type} (f : α → Option β) :
    ∀ L : List α, (∀ a ∈ L, (f a).isSome) → (L.filterMap f).length = L.length
  | [], _ => rfl
  | a :: as, h => by
    have ha : (f a).isSome := h a (List.mem_cons_self _ _)
    cases hfa : f a with
    | none => rw [hfa] at ha; simp at ha
    | some b =>
      rw [List.filterMap_cons, hfa]
      simp only [List.length_cons]
      rw [length_filterMap_of_all_some f as
        (fun x hx => h x (List.mem_cons_of_mem _ hx))]

theorem filterMap_reverse_eq {α β : Type} (f : α → Option β) :
    ∀ L : List α, (L.reverse.filterMap f) = (L.filterMap f).reverse
  | [] => rfl
  | a :: as => by
    rw [List.reverse_cons, List.filterMap_append, filterMap_reverse_eq f as,
      List.filterMap_cons]
    cases hfa : f a <;> simp [hfa]

theorem enumerate_reverse_feed_none
    (pairs : List (Entry × Option EntryForUpdate))
    (hfeed : ∀ p ∈ pairs, (p.1 : Entry).feed = none) :
    ∀ p ∈ (enumerate pairs).reverse, (p.2.1 : Entry).feed = none := by
  intro p hp
  rw [List.mem_reverse, enumerate, enumerateFrom_mem_iff] at hp
  obtain ⟨-, hget⟩ := hp
  simp only [Nat.sub_zero] at hget
  obtain ⟨hlt, hval⟩ := List.getElem?_eq_some.mp hget
  exact hfeed p.2 (hval ▸ List.getElem_mem hlt)

theorem update_ok_elim (u : Updater) (pr : ParseResult)
    (store : String → String → Option EntryForUpdate)
    (res : UpdateResult × List StorageCall)
    (h : u.update (ParseOutcome.ok pr) store = some res) :
    ∃ ents fi,
      u.get_entries_to_update (u.get_entry_pairs pr.entries store) = some ents ∧
      u.get_feed_to_update pr ents = some fi ∧
      res.1 = ⟨ents.map (fun p => ⟨p.1.entry, p.2⟩)⟩ ∧
      res.2 = [StorageCall.getEntriesForUpdate
          (pr.entries.map (fun e => (u.url, e.id)))] ++
        (if ents.isEmpty then []
         else [StorageCall.addOrUpdateEntries (ents.map (fun p => p.1))]) ++
        (match fi with
          | some fi2 => [StorageCall.updateFeed fi2.url fi2.feed fi2.http_etag
              fi2.http_last_modified fi2.last_updated]
          | none => []) := by
  simp only [Updater.update] at h
  cases h1 : u.get_entries_to_update (u.get_entry_pairs pr.entries store) with
  | none =>
    simp only [h1] at h
    exact Option.noConfusion h
  | some ents =>
    simp only [h1] at h
    cases h2 : u.get_feed_to_update pr ents with
    | none =>
      simp only [h2] at h
      exact Option.noConfusion h
    | some fi =>
      simp only [h2, Option.some.injEq] at h
      exact ⟨ents, fi, rfl, h2, by rw [← h], by rw [← h]⟩

/-- Claim C3: `should_update_feed(new_feed)` returns true if
`old_feed.last_updated` is absent, else true if `new_feed.updated` is absent,
else true exactly when it is not the case that `new_feed.updated` and
`old_feed.updated` are both present with `new_feed.updated ≤
old_feed.updated`; the stale flag is or-ed in so staleness forces true.
Stated under the function's own precondition (its assertion): a feed with no
prior `last_updated` has no prior `updated`. -/
theorem claim_C3 (u : Updater) (f : Feed)
    (hinv : u.old_feed.last_updated = none → u.old_feed.updated = none) :
    ∃ b, u.should_update_feed f = some b ∧
      (b = true ↔ (u.stale = true ∨ u.old_feed.last_updated = none ∨
        f.updated = none ∨
        ¬ ∃ nu ou, f.updated = some nu ∧ u.old_feed.updated = some ou ∧ nu ≤ ou)) := by
  cases hlu : u.old_feed.last_updated with
  | none =>
    refine ⟨true, should_update_feed_true_of_no_last_updated u f hlu (hinv hlu), ?_⟩
    simp
  | some lu =>
    cases hnu : f.updated with
    | none =>
      refine ⟨true, should_update_feed_true_of_no_updated u f lu hlu hnu, ?_⟩
      simp
    | some nu =>
      rw [should_update_feed_compare u f lu nu hlu hnu]
      cases hou : u.old_feed.updated with
      | none =>
        refine ⟨_, rfl, ?_⟩
        simp
      | some ou =>
        refine ⟨_, rfl, ?_⟩
        by_cases hle : nu ≤ ou <;> simp [hle]

/-- Claim C4: in a non-stale run, an entry with a declared updated time and a
prior stored record with `new.updated ≤ old.updated` gets the skip outcome
from `should_update_entry`, and `get_entries_to_update` emits no intent for
its position. -/
theorem claim_C4 (u : Updater) (pairs : List (Entry × Option EntryForUpdate))
    (l : List (EntryUpdateIntent × Bool)) (i : Nat) (hi : i < pairs.length)
    (e : Entry) (r : EntryForUpdate) (t0 : Time)
    (hfeed : ∀ p ∈ pairs, (p.1 : Entry).feed = none)
    (hs : u.stale = false)
    (hp : pairs[i] = (e, some r))
    (ht : e.updated = some t0) (hle : t0 ≤ r.updated)
    (h : u.get_entries_to_update pairs = some l) :
    u.should_update_entry e (some r) = (none, false) ∧
      ∀ q ∈ l, q.1.feed_order ≠ i := by
  have hskip := should_update_entry_skip u e r t0 hs ht hle
  refine ⟨hskip, ?_⟩
  intro q hq hfo
  obtain ⟨h2, hemit⟩ := mem_entries_to_update u pairs l hfeed h q hq
  subst hfo
  rw [hp] at hemit
  unfold Updater.emitEntry at hemit
  rw [hskip] at hemit
  exact Option.noConfusion hemit

/-- Claim C5: in a non-stale run, an entry whose `updated` is absent is
reported as updated, with the resolved timestamp being the old record's
`updated` when one exists and `now` otherwise. -/
theorem claim_C5 (u : Updater) (e : Entry) (o : Option EntryForUpdate)
    (hs : u.stale = false) (h : e.updated = none) :
    u.should_update_entry e o =
      (some (match o with
        | some r => r.updated
        | none => u.now), o.isNone) := by
  rw [should_update_entry_absent_updated u e o hs h]
  cases o <;> rfl

/-- Claim C6: every produced intent has `first_updated_epoch` present iff the
entry is new (no prior stored record for its id), equal to `global_now` when
present, and the `is_new` flag is true exactly in that case. -/
theorem claim_C6 (u : Updater) (entries : List Entry)
    (store : String → String → Option EntryForUpdate)
    (l : List (EntryUpdateIntent × Bool))
    (hfeed : ∀ e ∈ entries, e.feed = none)
    (h : u.get_entries_to_update (u.get_entry_pairs entries store) = some l) :
    ∀ q ∈ l, ∃ h2 : q.1.feed_order < entries.length,
      q.1.entry.id = entries[q.1.feed_order].id ∧
      q.2 = (store u.url entries[q.1.feed_order].id).isNone ∧
      q.1.first_updated_epoch = (if q.2 = true then some u.global_now else none) ∧
      q.1.first_updated_epoch.isSome = q.2 := by
  rw [get_entry_pairs_eq_map] at h
  have hfeed2 : ∀ p ∈ entries.map (fun e => (e, store u.url e.id)),
      (p.1 : Entry).feed = none := by
    intro p hp
    obtain ⟨e, he, rfl⟩ := List.mem_map.mp hp
    exact hfeed e he
  intro q hq
  obtain ⟨h2, hemit⟩ := mem_entries_to_update u _ l hfeed2 h q hq
  have h2e : q.1.feed_order < entries.length := by simpa using h2
  simp only [List.getElem_map] at hemit
  obtain ⟨t, hsue, hq1⟩ := emitEntry_eq_some u _ q hemit
  have hid : q.1.entry.id = entries[q.1.feed_order].id := by
    have hc := congrArg (fun x : EntryUpdateIntent => x.entry.id) hq1
    simpa using hc
  have hfue : q.1.first_updated_epoch =
      (if q.2 = true then some u.global_now else none) := by
    have hc := congrArg EntryUpdateIntent.first_updated_epoch hq1
    simpa using hc
  refine ⟨h2e, hid, ?_, hfue, ?_⟩
  · exact should_update_entry_isNew u _ _ t q.2 hsue
  · rw [hfue]
    cases hb : q.2 <;> simp [hb]

/-- Claim C7: when the parser signals "not modified", `update` makes exactly
one storage call — `update_feed(url, absent, absent, absent, now)` — and
returns an empty `UpdateResult`; the path is a normal outcome, not a
failure. -/
theorem claim_C7 (u : Updater) (store : String → String → Option EntryForUpdate) :
    u.update ParseOutcome.notModified store =
      some (⟨[]⟩, [StorageCall.updateFeed u.url none none none u.now]) := rfl

/-- Claim C9: every intent produced for the storage upsert carries an entry
whose resolved `updated` timestamp is present. -/
theorem claim_C9 (u : Updater) (entries : List Entry)
    (store : String → String → Option EntryForUpdate)
    (l : List (EntryUpdateIntent × Bool))
    (hfeed : ∀ e ∈ entries, e.feed = none)
    (h : u.get_entries_to_update (u.get_entry_pairs entries store) = some l) :
    ∀ q ∈ l, q.1.entry.updated.isSome := by
  rw [get_entry_pairs_eq_map] at h
  have hfeed2 : ∀ p ∈ entries.map (fun e => (e, store u.url e.id)),
      (p.1 : Entry).feed = none := by
    intro p hp
    obtain ⟨e, he, rfl⟩ := List.mem_map.mp hp
    exact hfeed e he
  intro q hq
  obtain ⟨h2, hemit⟩ := mem_entries_to_update u _ l hfeed2 h q hq
  obtain ⟨t, -, hq1⟩ := emitEntry_eq_some u _ q hemit
  rw [hq1]
  rfl

/-- Claim C10: the `assert new_entry.feed is None` in `get_entries_to_update`
never fires when the parser hands entries with no feed back-reference, so the
computation never aborts on it. -/
theorem claim_C10 (u : Updater) (pairs : List (Entry × Option EntryForUpdate))
    (hfeed : ∀ p ∈ pairs, (p.1 : Entry).feed = none) :
    (u.get_entries_to_update pairs).isSome := by
  rw [Updater.get_entries_to_update,
    entriesLoop_eq_filterMap u _ (enumerate_reverse_feed_none pairs hfeed)]
  rfl

theorem claim_C3_witness :
    ∃ b, Updater.should_update_feed ⟨⟨"f", some 5, none, none, false, some 9⟩, 1, 2⟩
        { url := "f", updated := some 4 } = some b ∧
      (b = true ↔
        ((⟨⟨"f", some 5, none, none, false, some 9⟩, 1, 2⟩ : Updater).stale = true ∨
         (⟨⟨"f", some 5, none, none, false, some 9⟩, 1, 2⟩ :
            Updater).old_feed.last_updated = none ∨
         ({ url := "f", updated := some 4 } : Feed).updated = none ∨
         ¬ ∃ nu ou, ({ url := "f", updated := some 4 } : Feed).updated = some nu ∧
           (⟨⟨"f", some 5, none, none, false, some 9⟩, 1, 2⟩ :
              Updater).old_feed.updated = some ou ∧ nu ≤ ou)) :=
  claim_C3 ⟨⟨"f", some 5, none, none, false, some 9⟩, 1, 2⟩
    { url := "f", updated := some 4 } (by decide)

theorem claim_C4_witness :
    Updater.should_update_entry ⟨⟨"f", some 1, none, none, false, some 9⟩, 7, 8⟩
        { id := "e", updated := some 3 } (some ⟨5⟩) = (none, false) ∧
      ∀ q ∈ ([] : List (EntryUpdateIntent × Bool)), q.1.feed_order ≠ 0 :=
  claim_C4 ⟨⟨"f", some 1, none, none, false, some 9⟩, 7, 8⟩
    [({ id := "e", updated := some 3 }, some ⟨5⟩)] [] 0 (by decide)
    { id := "e", updated := some 3 } ⟨5⟩ 3 (by decide) (by decide) (by decide)
    (by decide) (by decide) (by decide)

theorem claim_C5_witness :
    Updater.should_update_entry ⟨⟨"f", none, none, none, false, some 1⟩, 7, 9⟩
      { id := "e", updated := none } (some ⟨4⟩) = (some 4, false) :=
  claim_C5 ⟨⟨"f", none, none, none, false, some 1⟩, 7, 9⟩
    { id := "e", updated := none } (some ⟨4⟩) rfl rfl

theorem claim_C6_witness :
    ∃ h2 : (0 : Nat) < 1, ("e0" : String) = "e0" ∧ (true : Bool) = true ∧
      (some 9 : Option Time) = some 9 ∧ (true : Bool) = true :=
  claim_C6 ⟨⟨"f", none, none, none, false, none⟩, 7, 9⟩
    [{ id := "e0", updated := some 1 }] (fun _ _ => none)
    [(⟨"f", { id := "e0", updated := some 1 }, 7, some 9, 0⟩, true)]
    (by decide) (by decide)
    (⟨"f", { id := "e0", updated := some 1 }, 7, some 9, 0⟩, true) (by decide)

theorem claim_C9_witness :
    ((⟨"f", { id := "e0", updated := some 1 }, 7, some 9, 0⟩ :
        EntryUpdateIntent), true).1.entry.updated.isSome :=
  claim_C9 ⟨⟨"f", none, none, none, false, none⟩, 7, 9⟩
    [{ id := "e0", updated := some 1 }] (fun _ _ => none)
    [(⟨"f", { id := "e0", updated := some 1 }, 7, some 9, 0⟩, true)]
    (by decide) (by decide)
    (⟨"f", { id := "e0", updated := some 1 }, 7, some 9, 0⟩, true) (by decide)

theorem claim_C10_witness :
    (Updater.get_entries_to_update ⟨⟨"f", none, none, none, false, none⟩, 7, 9⟩
      [({ id := "e", updated := some 1 }, none)]).isSome :=
  claim_C10 ⟨⟨"f", none, none, none, false, none⟩, 7, 9⟩
    [({ id := "e", updated := some 1 }, none)] (by decide)

theorem snd_mem_of_mem_enumerate_reverse {α : Type} (l : List α) (p : Nat × α)
    (hp : p ∈ (enumerate l).reverse) : p.2 ∈ l := by
  rw [List.mem_reverse, enumerate, enumerateFrom_mem_iff] at hp
  obtain ⟨-, hget⟩ := hp
  simp only [Nat.sub_zero] at hget
  obtain ⟨hlt, hval⟩ := List.getElem?_eq_some.mp hget
  exact hval ▸ List.getElem_mem hlt

/-- Claim C2 counterexample: in a stale run, a parsed entry whose `updated`
is absent while a prior record exists gets exactly the skip outcome
`(none, false)` from `should_update_entry`, and `get_entries_to_update`
emits no intent for it — refuting "every parsed entry produces an update
intent" for stale runs. -/
theorem claim_C2_counterexample :
    Updater.should_update_entry
        (mkUpdater ⟨"f", some 1, some "et", none, true, some 3⟩ 10 20)
        { id := "e", updated := none } (some ⟨5⟩) = (none, false) ∧
      Updater.get_entries_to_update
        (mkUpdater ⟨"f", some 1, some "et", none, true, some 3⟩ 10 20)
        [({ id := "e", updated := none }, some ⟨5⟩)] = some [] := by
  decide

/-- Claim C2 (amended): for a run with `old_feed.stale = true`, every parsed
entry whose `updated` is present produces an update intent (never the skip
outcome, regardless of how it compares to the stored `updated`),
`should_update_feed` always returns true, and the emitted `FeedUpdateIntent`
carries the new parsed feed metadata.  (An entry with absent `updated` is
dropped even when stale, per the counterexample.) -/
theorem claim_C2_amended (old : FeedForUpdate) (n g : Time)
    (hstale : old.stale = true) :
    (∀ (e : Entry) (o : Option EntryForUpdate) (t0 : Time), e.updated = some t0 →
      (mkUpdater old n g).should_update_entry e o = (some t0, o.isNone)) ∧
    (∀ pairs : List (Entry × Option EntryForUpdate),
      (∀ p ∈ pairs, (p.1 : Entry).feed = none ∧ (p.1 : Entry).updated.isSome) →
      ∃ l, (mkUpdater old n g).get_entries_to_update pairs = some l ∧
        l.length = pairs.length) ∧
    (∀ f : Feed, (mkUpdater old n g).should_update_feed f = some true) ∧
    (∀ (pr : ParseResult) (ents : List (EntryUpdateIntent × Bool)),
      (mkUpdater old n g).get_feed_to_update pr ents =
        some (some ⟨(mkUpdater old n g).url, some pr.feed, pr.http_etag,
          pr.http_last_modified, (mkUpdater old n g).now⟩)) := by
  have hs : (mkUpdater old n g).stale = true := by
    rw [mkUpdater_stale]
    exact hstale
  have hlu : (mkUpdater old n g).old_feed.last_updated = old.last_updated :=
    mkUpdater_last_updated old n g
  have hupd : (mkUpdater old n g).old_feed.updated = none :=
    mkUpdater_updated_of_stale old n g hstale
  have hfeedtrue : ∀ f : Feed, (mkUpdater old n g).should_update_feed f = some true := by
    intro f
    cases hlast : old.last_updated with
    | none =>
      exact should_update_feed_true_of_no_last_updated _ f (hlu.trans hlast) hupd
    | some lu =>
      cases hfu : f.updated with
      | none => exact should_update_feed_true_of_no_updated _ f lu (hlu.trans hlast) hfu
      | some nu =>
        rw [should_update_feed_compare _ f lu nu (hlu.trans hlast) hfu, hupd, hs]
        rfl
  refine ⟨?_, ?_, hfeedtrue, ?_⟩
  · intro e o t0 ht
    rw [should_update_entry_stale _ e o hs, ht]
  · intro pairs hp
    have hall : ∀ a ∈ (enumerate pairs).reverse, ((mkUpdater old n g).emitEntry a).isSome := by
      intro a ha
      have hmem := snd_mem_of_mem_enumerate_reverse pairs a ha
      obtain ⟨-, hupda⟩ := hp a.2 hmem
      obtain ⟨t0, ht0⟩ := Option.isSome_iff_exists.mp hupda
      unfold Updater.emitEntry
      rw [should_update_entry_stale _ _ _ hs, ht0]
      rfl
    refine ⟨_, entriesLoop_eq_filterMap _ _
      (fun p hmem => (hp p.2 (snd_mem_of_mem_enumerate_reverse pairs p hmem)).1), ?_⟩
    rw [length_filterMap_of_all_some _ _ hall, List.length_reverse, enumerate,
      length_enumerateFrom]
  · intro pr ents
    unfold Updater.get_feed_to_update
    rw [hfeedtrue pr.feed]
    rfl

theorem claim_C2_amended_witness :
    (⟨"f", some 1, none, none, true, some 3⟩ : FeedForUpdate).stale = true ∧
      Updater.should_update_entry (mkUpdater ⟨"f", some 1, none, none, true, some 3⟩ 10 20)
        { id := "e", updated := some 9 } (some ⟨99⟩) = (some 9, false) :=
  ⟨rfl, (claim_C2_amended ⟨"f", some 1, none, none, true, some 3⟩ 10 20 rfl).1
    { id := "e", updated := some 9 } (some ⟨99⟩) 9 rfl⟩

theorem snd_mem_of_mem_enumerateFrom {α : Type} (l : List α) (n : Nat) (p : Nat × α)
    (hp : p ∈ enumerateFrom n l) : p.2 ∈ l := by
  rw [enumerateFrom_mem_iff] at hp
  obtain ⟨-, hget⟩ := hp
  obtain ⟨hlt, hval⟩ := List.getElem?_eq_some.mp hget
  exact hval ▸ List.getElem_mem hlt

theorem filterMap_eq_map_of_forall {α β : Type} (f : α → Option β) (g2 : α → β) :
    ∀ L : List α, (∀ a ∈ L, f a = some (g2 a)) → L.filterMap f = L.map g2
  | [], _ => rfl
  | a :: as, h => by
    rw [List.filterMap_cons, h a (List.mem_cons_self _ _), List.map_cons,
      filterMap_eq_map_of_forall f g2 as
        (fun x hx => h x (List.mem_cons_of_mem _ hx))]

theorem enumerateFrom_map_proj {α β : Type} (h : α → β) :
    ∀ (n : Nat) (l : List α), (enumerateFrom n l).map (fun p => h p.2) = l.map h
  | _, [] => rfl
  | n, a :: as => by
    simp [enumerateFrom, enumerateFrom_map_proj h (n + 1) as]

/-- Claim C1 counterexample: for two parsed entries `e0, e1` that are both
new, the `UpdateResult` lists them as `[(e1, true), (e0, true)]` — the
reverse of parser order — refuting "the result is in the original parser
order". -/
theorem claim_C1_counterexample :
    (Updater.update (mkUpdater ⟨"f", none, none, none, false, none⟩ 5 6)
        (ParseOutcome.ok ⟨⟨{ url := "f", updated := some 3 }, none, none⟩,
          [{ id := "e0", updated := some 1 }, { id := "e1", updated := some 2 }]⟩)
        (fun _ _ => none)).map
        (fun res => res.1.entries.map (fun q => (q.entry.id, q.new)))
      = some [("e1", true), ("e0", true)] ∧
    ¬ ((Updater.update (mkUpdater ⟨"f", none, none, none, false, none⟩ 5 6)
        (ParseOutcome.ok ⟨⟨{ url := "f", updated := some 3 }, none, none⟩,
          [{ id := "e0", updated := some 1 }, { id := "e1", updated := some 2 }]⟩)
        (fun _ _ => none)).map
        (fun res => res.1.entries.map (fun q => (q.entry.id, q.new)))
      = some [("e0", true), ("e1", true)]) := by
  decide

/-- Claim C1 (amended): for every parsed feed whose entries are all new, the
`UpdateResult` returned by `update` lists the `(Entry, is_new)` pairs in
REVERSE of the original parser order, and the `EntryUpdateIntent` emitted for
the entry at original zero-based position `i` carries `feed_order = i` (the
internal reverse traversal is what the caller observes). -/
theorem claim_C1_amended (u : Updater) (pr : ParseResult)
    (store : String → String → Option EntryForUpdate)
    (hfeed : ∀ e ∈ pr.entries,
      e.feed = none ∧ e.updated.isSome ∧ store u.url e.id = none) :
    u.get_entries_to_update (u.get_entry_pairs pr.entries store) =
      some (((enumerate pr.entries).map (fun p =>
        ((⟨u.url, p.2, u.now, some u.global_now, p.1⟩ : EntryUpdateIntent),
          true))).reverse) ∧
    (∀ res, u.update (ParseOutcome.ok pr) store = some res →
      res.1.entries =
        (pr.entries.map (fun e => (⟨e, true⟩ : UpdatedEntry))).reverse) := by
  have parta : u.get_entries_to_update (u.get_entry_pairs pr.entries store) =
      some (((enumerate pr.entries).map (fun p =>
        ((⟨u.url, p.2, u.now, some u.global_now, p.1⟩ : EntryUpdateIntent),
          true))).reverse) := by
    rw [get_entry_pairs_eq_map]
    have hfeed2 : ∀ p ∈ pr.entries.map (fun e => (e, store u.url e.id)),
        (p.1 : Entry).feed = none := by
      intro p hp
      obtain ⟨e, he, rfl⟩ := List.mem_map.mp hp
      exact (hfeed e he).1
    rw [Updater.get_entries_to_update,
      entriesLoop_eq_filterMap u _ (enumerate_reverse_feed_none _ hfeed2),
      Option.some.injEq, filterMap_reverse_eq]
    congr 1
    rw [enumerate, enumerateFrom_map, List.filterMap_map]
    have hstep : ∀ a ∈ enumerateFrom 0 pr.entries,
        u.emitEntry (a.1, (a.2, store u.url a.2.id)) =
          some ((⟨u.url, a.2, u.now, some u.global_now, a.1⟩ : EntryUpdateIntent),
            true) := by
      intro a ha
      have hmem : a.2 ∈ pr.entries := snd_mem_of_mem_enumerateFrom pr.entries 0 a ha
      obtain ⟨-, hupd, hst⟩ := hfeed a.2 hmem
      obtain ⟨t0, ht0⟩ := Option.isSome_iff_exists.mp hupd
      unfold Updater.emitEntry
      rw [hst]
      simp only [should_update_entry_no_old u a.2 t0 ht0]
      rw [← ht0]
      rfl
    exact filterMap_eq_map_of_forall _ _ _ hstep
  refine ⟨parta, ?_⟩
  intro res hres
  obtain ⟨ents, fi, h1, -, hres1, -⟩ := update_ok_elim u pr store res hres
  have hents : ents = ((enumerate pr.entries).map (fun p =>
      ((⟨u.url, p.2, u.now, some u.global_now, p.1⟩ : EntryUpdateIntent),
        true))).reverse :=
    Option.some.inj (h1.symm.trans parta)
  rw [hres1, hents]
  show (((enumerate pr.entries).map _).reverse.map _) = _
  rw [List.map_reverse]
  congr 1
  rw [List.map_map, enumerate]
  exact enumerateFrom_map_proj (fun e => (⟨e, true⟩ : UpdatedEntry)) 0 pr.entries

theorem claim_C1_amended_witness :
    Updater.get_entries_to_update (mkUpdater ⟨"f", none, none, none, false, none⟩ 5 6)
        (Updater.get_entry_pairs (mkUpdater ⟨"f", none, none, none, false, none⟩ 5 6)
          [{ id := "e0", updated := some 1 }, { id := "e1", updated := some 2 }]
          (fun _ _ => none)) =
      some [((⟨"f", { id := "e1", updated := some 2 }, 5, some 6, 1⟩ :
          EntryUpdateIntent), true),
        ((⟨"f", { id := "e0", updated := some 1 }, 5, some 6, 0⟩ :
          EntryUpdateIntent), true)] :=
  (claim_C1_amended (mkUpdater ⟨"f", none, none, none, false, none⟩ 5 6)
    ⟨⟨{ url := "f", updated := some 3 }, none, none⟩,
      [{ id := "e0", updated := some 1 }, { id := "e1", updated := some 2 }]⟩
    (fun _ _ => none) (by decide)).1

theorem should_update_entry_resolved_eq (u : Updater) (e : Entry)
    (o : Option EntryForUpdate) (t : Time) (n : Bool) (te : Time)
    (hte : e.updated = some te)
    (h : u.should_update_entry e o = (some t, n)) : t = te := by
  by_cases hs : u.stale = true
  · rw [should_update_entry_stale u e o hs, hte, Prod.mk.injEq] at h
    exact (Option.some.inj h.1).symm
  · have hs2 : u.stale = false := by revert hs; cases u.stale <;> simp
    cases o with
    | none =>
      rw [should_update_entry_no_old u e te hte, Prod.mk.injEq] at h
      exact (Option.some.inj h.1).symm
    | some r =>
      by_cases hle : te ≤ r.updated
      · rw [should_update_entry_skip u e r te hs2 hte hle, Prod.mk.injEq] at h
        exact absurd h.1 (by simp)
      · rw [should_update_entry_newer u e r te hs2 hte hle, Prod.mk.injEq] at h
        exact (Option.some.inj h.1).symm

theorem emitEntry_none_elim (u : Updater) (p : Nat × (Entry × Option EntryForUpdate))
    (te : Time) (hte : (p.2.1 : Entry).updated = some te)
    (h : u.emitEntry p = none) :
    u.stale = false ∧ ∃ r, p.2.2 = some r ∧ te ≤ r.updated := by
  unfold Updater.emitEntry at h
  cases hsue : u.should_update_entry p.2.1 p.2.2 with
  | mk t n =>
    rw [hsue] at h
    cases t with
    | some t0 => simp at h
    | none =>
      by_cases hs : u.stale = true
      · rw [should_update_entry_stale u p.2.1 p.2.2 hs, hte, Prod.mk.injEq] at hsue
        exact absurd hsue.1 (by simp)
      · have hs2 : u.stale = false := by revert hs; cases u.stale <;> simp
        cases ho : p.2.2 with
        | none =>
          rw [ho, should_update_entry_no_old u p.2.1 te hte, Prod.mk.injEq] at hsue
          exact absurd hsue.1 (by simp)
        | some r =>
          by_cases hle : te ≤ r.updated
          · exact ⟨hs2, r, rfl, hle⟩
          · rw [ho, should_update_entry_newer u p.2.1 r te hs2 hte hle,
              Prod.mk.injEq] at hsue
            exact absurd hsue.1 (by simp)

theorem persistFeed_url (old : FeedForUpdate) (fi : Option FeedUpdateIntent) :
    (persistFeed old fi).url = old.url := by
  cases fi <;> rfl

theorem nodup_map_getElem_inj {α β : Type} (l : List α) (f : α → β)
    (h : (l.map f).Nodup) (i j : Nat) (hi : i < l.length) (hj : j < l.length)
    (he : f (l.get ⟨i, hi⟩) = f (l.get ⟨j, hj⟩)) : i = j := by
  have hi2 : i < (l.map f).length := by simpa using hi
  have hj2 : j < (l.map f).length := by simpa using hj
  have hgi : (l.map f).get ⟨i, hi2⟩ = f (l.get ⟨i, hi⟩) := by
    simp
  have hgj : (l.map f).get ⟨j, hj2⟩ = f (l.get ⟨j, hj⟩) := by
    simp
  have : (l.map f).get ⟨i, hi2⟩ = (l.map f).get ⟨j, hj2⟩ := by
    rw [hgi, hgj, he]
  have := List.Nodup.get_inj_iff h |>.mp this
  simpa using this

theorem run1_store_correspondence
    (u1 : Updater) (entries : List Entry)
    (store1 : String → String → Option EntryForUpdate)
    (ents : List (EntryUpdateIntent × Bool))
    (hent : ∀ e ∈ entries, e.feed = none ∧ e.updated.isSome)
    (hnodup : (entries.map Entry.id).Nodup)
    (h1 : u1.get_entries_to_update (u1.get_entry_pairs entries store1) = some ents) :
    ∀ e ∈ entries, ∃ te r2, e.updated = some te ∧
      persistEntries store1 (ents.map (fun p => p.1)) u1.url e.id = some r2 ∧
      te ≤ r2.updated := by
  rw [get_entry_pairs_eq_map] at h1
  have hfeed2 : ∀ p ∈ entries.map (fun e => (e, store1 u1.url e.id)),
      (p.1 : Entry).feed = none := by
    intro p hp
    obtain ⟨e, he, rfl⟩ := List.mem_map.mp hp
    exact (hent e he).1
  have hidfact : ∀ q ∈ ents, ∃ (fo : Nat) (hfo : fo < entries.length),
      q.1.feed_order = fo ∧ q.1.entry.id = entries[fo].id ∧ q.1.url = u1.url ∧
      u1.emitEntry (fo, (entries[fo], store1 u1.url entries[fo].id)) = some q := by
    intro q hq
    obtain ⟨h2, hemit⟩ := mem_entries_to_update u1 _ ents hfeed2 h1 q hq
    have h2e : q.1.feed_order < entries.length := by simpa using h2
    simp only [List.getElem_map] at hemit
    obtain ⟨t, hsue, hq1⟩ := emitEntry_eq_some u1 _ q hemit
    refine ⟨q.1.feed_order, h2e, rfl, ?_, ?_, hemit⟩
    · have hc := congrArg (fun x : EntryUpdateIntent => x.entry.id) hq1
      simpa using hc
    · have hc := congrArg EntryUpdateIntent.url hq1
      simpa using hc
  intro e he
  obtain ⟨te, hte⟩ := Option.isSome_iff_exists.mp (hent e he).2
  obtain ⟨⟨i, hi⟩, hei⟩ := List.mem_iff_get.mp he
  have hei2 : entries[i] = e := hei
  have hi2 : i < (entries.map (fun e2 => (e2, store1 u1.url e2.id))).length := by
    simpa using hi
  have hpair : (entries.map (fun e2 => (e2, store1 u1.url e2.id)))[i] =
      (e, store1 u1.url e.id) := by
    simp [List.getElem_map, hei2]
  by_cases hcase : ∃ q ∈ ents, (q.1 : EntryUpdateIntent).entry.id = e.id
  · obtain ⟨q, hq, hqid⟩ := hcase
    obtain ⟨fo, hfo, hfoeq, hqid2, hqurl, hemitq⟩ := hidfact q hq
    have hfoi : fo = i := by
      apply nodup_map_getElem_inj entries Entry.id hnodup fo i hfo hi
      show entries[fo].id = entries[i].id
      rw [← hqid2, hqid, hei2]
    subst hfoi
    rw [hei2] at hemitq
    obtain ⟨t, hsue, hq1⟩ := emitEntry_eq_some u1 _ q hemitq
    have hteq : t = te := should_update_entry_resolved_eq u1 e _ t q.2 te hte hsue
    have hqupd : q.1.entry.updated = some te := by
      have hc := congrArg (fun x : EntryUpdateIntent => x.entry.updated) hq1
      simpa [hteq] using hc
    have huniq : ∀ j ∈ ents.map (fun p => p.1), j.url = u1.url →
        j.entry.id = e.id → j = q.1 := by
      intro j hj hjurl hjid
      obtain ⟨q2, hq2, rfl⟩ := List.mem_map.mp hj
      obtain ⟨fo2, hfo2, hfo2eq, hq2id, hq2url, hemitq2⟩ := hidfact q2 hq2
      have hfo2i : fo2 = fo := by
        apply nodup_map_getElem_inj entries Entry.id hnodup fo2 fo hfo2 hi
        show entries[fo2].id = entries[fo].id
        rw [← hq2id, hjid, hei2]
      subst hfo2i
      rw [hei2] at hemitq2
      have hqq : q = q2 := Option.some.inj (hemitq.symm.trans hemitq2)
      rw [← hqq]
    have hmemq : q.1 ∈ ents.map (fun p => p.1) := List.mem_map.mpr ⟨q, hq, rfl⟩
    rw [persistEntries_eq_of_unique (ents.map (fun p => p.1)) store1 u1.url e.id
      q.1 hmemq hqurl hqid huniq]
    refine ⟨te, _, hte, rfl, ?_⟩
    simp [hqupd]
  · cases hememit : u1.emitEntry (i, (e, store1 u1.url e.id)) with
    | some q =>
      exfalso
      have hq : q ∈ ents := by
        apply entries_to_update_mem_of_emit u1 _ ents hfeed2 h1 i hi2 q
        rw [hpair]
        exact hememit
      obtain ⟨t, -, hq1⟩ := emitEntry_eq_some u1 _ q hememit
      refine hcase ⟨q, hq, ?_⟩
      have hc := congrArg (fun x : EntryUpdateIntent => x.entry.id) hq1
      simpa using hc
    | none =>
      obtain ⟨hs2, r, hor, hle⟩ :=
        emitEntry_none_elim u1 (i, (e, store1 u1.url e.id)) te hte hememit
      have hnm : ∀ j ∈ ents.map (fun p => p.1),
          ¬(u1.url = j.url ∧ e.id = j.entry.id) := by
        intro j hj hc
        obtain ⟨q2, hq2, rfl⟩ := List.mem_map.mp hj
        exact hcase ⟨q2, hq2, hc.2.symm⟩
      rw [persistEntries_eq_of_no_match (ents.map (fun p => p.1)) store1
        u1.url e.id hnm]
      have hor2 : store1 u1.url e.id = some r := hor
      exact ⟨te, r, hte, hor2, hle⟩

theorem run1_feed_correspondence
    (old1 : FeedForUpdate) (now1 g1 : Time) (pr : ParseResult) (fu : Time)
    (ents : List (EntryUpdateIntent × Bool)) (fi : Option FeedUpdateIntent)
    (hfu : pr.feed.updated = some fu)
    (h2 : (mkUpdater old1 now1 g1).get_feed_to_update pr ents = some fi) :
    (persistFeed old1 fi).last_updated.isSome ∧
      ∃ ou, (persistFeed old1 fi).updated = some ou ∧ fu ≤ ou := by
  unfold Updater.get_feed_to_update at h2
  cases hb : (mkUpdater old1 now1 g1).should_update_feed pr.feed with
  | none =>
    simp only [hb] at h2
    exact Option.noConfusion h2
  | some b =>
    simp only [hb] at h2
    cases b with
    | true =>
      simp only [if_true] at h2
      obtain rfl : fi = some ⟨(mkUpdater old1 now1 g1).url, some pr.feed,
          pr.http_etag, pr.http_last_modified, (mkUpdater old1 now1 g1).now⟩ :=
        (Option.some.inj h2).symm
      refine ⟨rfl, fu, ?_, le_refl fu⟩
      simp only [persistFeed]
      exact hfu
    | false =>
      obtain ⟨hs2, hlusome, hcomp⟩ := should_update_feed_false_elim _ pr.feed hb
      obtain ⟨ou, hou, hle⟩ := hcomp fu hfu
      have hst : old1.stale = false := by
        rw [← mkUpdater_stale old1 now1 g1]
        exact hs2
      have hu1 : mkUpdater old1 now1 g1 = ⟨old1, now1, g1⟩ :=
        mkUpdater_of_not_stale old1 now1 g1 hst
      rw [hu1] at hou hlusome
      rw [if_neg (by simp)] at h2
      split at h2
      · obtain rfl : fi = some ⟨(mkUpdater old1 now1 g1).url, none, none, none,
            (mkUpdater old1 now1 g1).now⟩ :=
          (Option.some.inj h2).symm
        refine ⟨rfl, ou, ?_, hle⟩
        simp only [persistFeed]
        exact hou
      · obtain rfl : fi = none := (Option.some.inj h2).symm
        exact ⟨hlusome, ou, hou, hle⟩

/-- Claim C8 (amended): reconciling the same unchanged parsed snapshot twice
in a row — the second run using the first run's persisted state as `old_feed`
and entry store, with stale false — yields an empty `UpdateResult` and no
`FeedUpdateIntent` at all (not even a touch-only one), provided the snapshot's
feed and entries all carry a declared `updated` time and entry ids are
distinct.  (Snapshots with an absent `updated` re-emit on every run, per the
counterexample.) -/
theorem claim_C8_amended
    (old1 : FeedForUpdate) (now1 g1 now2 g2 : Time)
    (store1 : String → String → Option EntryForUpdate)
    (pr : ParseResult) (fu : Time)
    (feed2 : FeedForUpdate) (store2 : String → String → Option EntryForUpdate)
    (hfu : pr.feed.updated = some fu)
    (hent : ∀ e ∈ pr.entries, e.feed = none ∧ e.updated.isSome)
    (hnodup : (pr.entries.map Entry.id).Nodup)
    (hrun1 : runPersist old1 now1 g1 pr store1 = some (feed2, store2)) :
    Updater.update (mkUpdater { feed2 with stale := false } now2 g2)
        (ParseOutcome.ok pr) store2 =
      some (⟨[]⟩, [StorageCall.getEntriesForUpdate
        (pr.entries.map (fun e => (feed2.url, e.id)))]) := by
  simp only [runPersist] at hrun1
  cases h1 : (mkUpdater old1 now1 g1).get_entries_to_update
      ((mkUpdater old1 now1 g1).get_entry_pairs pr.entries store1) with
  | none =>
    simp only [h1] at hrun1
    exact Option.noConfusion hrun1
  | some ents =>
    simp only [h1] at hrun1
    cases h2 : (mkUpdater old1 now1 g1).get_feed_to_update pr ents with
    | none =>
      simp only [h2] at hrun1
      exact Option.noConfusion hrun1
    | some fi =>
      simp only [h2, Option.some.injEq, Prod.mk.injEq] at hrun1
      obtain ⟨hfeed2eq, hstore2eq⟩ := hrun1
      have hstorefacts := run1_store_correspondence (mkUpdater old1 now1 g1)
        pr.entries store1 ents hent hnodup h1
      have hfeedfacts := run1_feed_correspondence old1 now1 g1 pr fu ents fi hfu h2
      rw [hfeed2eq] at hfeedfacts
      obtain ⟨hlu2, ou, hou2, hle2⟩ := hfeedfacts
      have hf2url : feed2.url = old1.url := by
        rw [← hfeed2eq]
        exact persistFeed_url old1 fi
      have hu2 : mkUpdater { feed2 with stale := false } now2 g2 =
          ⟨{ feed2 with stale := false }, now2, g2⟩ :=
        mkUpdater_of_not_stale _ _ _ rfl
      have hskipall : ∀ e ∈ pr.entries,
          (mkUpdater { feed2 with stale := false } now2 g2).should_update_entry e
            (store2 feed2.url e.id) = (none, false) := by
        intro e he
        obtain ⟨te, r2, hte, hst2, hler⟩ := hstorefacts e he
        rw [mkUpdater_url] at hst2
        have hst3 : store2 feed2.url e.id = some r2 := by
          rw [hf2url, ← hstore2eq]
          exact hst2
        have hs2stale : (mkUpdater { feed2 with stale := false } now2 g2).stale = false := by
          rw [mkUpdater_stale]
        rw [hst3]
        exact should_update_entry_skip _ e r2 te hs2stale hte hler
      have hu2url : (mkUpdater { feed2 with stale := false } now2 g2).url = feed2.url := by
        rw [hu2]
        rfl
      have hg2 : (mkUpdater { feed2 with stale := false } now2 g2).get_entries_to_update
          ((mkUpdater { feed2 with stale := false } now2 g2).get_entry_pairs
            pr.entries store2) = some [] := by
        rw [get_entry_pairs_eq_map]
        have hfe2 : ∀ p ∈ pr.entries.map (fun e =>
            (e, store2 (mkUpdater { feed2 with stale := false } now2 g2).url e.id)),
            (p.1 : Entry).feed = none := by
          intro p hp
          obtain ⟨e, he, rfl⟩ := List.mem_map.mp hp
          exact (hent e he).1
        rw [Updater.get_entries_to_update,
          entriesLoop_eq_filterMap _ _ (enumerate_reverse_feed_none _ hfe2),
          Option.some.injEq]
        rw [List.filterMap_eq_nil_iff]
        intro a ha
        have hmem := snd_mem_of_mem_enumerate_reverse _ a ha
        obtain ⟨e, he, hae⟩ := List.mem_map.mp hmem
        unfold Updater.emitEntry
        have hsue : (mkUpdater { feed2 with stale := false } now2 g2).should_update_entry
            a.2.1 a.2.2 = (none, false) := by
          rw [← hae]
          show (mkUpdater { feed2 with stale := false } now2 g2).should_update_entry e
            (store2 (mkUpdater { feed2 with stale := false } now2 g2).url e.id) = (none, false)
          rw [hu2url]
          exact hskipall e he
        rw [hsue]
      have hlu : ({ feed2 with stale := false } : FeedForUpdate).last_updated.isSome := hlu2
      obtain ⟨lu, hlueq⟩ := Option.isSome_iff_exists.mp hlu
      have hsf2 : (mkUpdater { feed2 with stale := false } now2 g2).should_update_feed
          pr.feed = some false := by
        have hlu3 : (mkUpdater { feed2 with stale := false } now2 g2).old_feed.last_updated =
            some lu := by
          rw [hu2]
          exact hlueq
        rw [should_update_feed_compare _ pr.feed lu fu hlu3 hfu]
        have hupd2 : (mkUpdater { feed2 with stale := false } now2 g2).old_feed.updated =
            some ou := by
          rw [hu2]
          exact hou2
        rw [hupd2, mkUpdater_stale]
        simp [hle2]
      have hgf2 : (mkUpdater { feed2 with stale := false } now2 g2).get_feed_to_update
          pr [] = some none := by
        unfold Updater.get_feed_to_update
        rw [hsf2]
        rfl
      simp only [Updater.update, hg2, hgf2]
      rw [hu2url, hf2url]
      rw [← hf2url]
      rfl

/-- Claim C8 counterexample: a snapshot with a single entry whose `updated`
is absent is NOT idempotent — the second run over the first run's persisted
state re-emits the entry (non-empty UpdateResult), refuting "yields an empty
UpdateResult ... for every parsed snapshot". -/
theorem claim_C8_counterexample :
    ((runPersist ⟨"f", none, none, none, false, none⟩ 5 6
        ⟨⟨{ url := "f" }, none, none⟩, [{ id := "e", updated := none }]⟩
        (fun _ _ => none)).map
      (fun st => (Updater.update (mkUpdater { st.1 with stale := false } 7 8)
          (ParseOutcome.ok ⟨⟨{ url := "f" }, none, none⟩,
            [{ id := "e", updated := none }]⟩) st.2).map
        (fun res => res.1))) =
      some (some ⟨[⟨{ id := "e", updated := some 5 }, false⟩]⟩) ∧
    ((runPersist ⟨"f", none, none, none, false, none⟩ 5 6
        ⟨⟨{ url := "f" }, none, none⟩, [{ id := "e", updated := none }]⟩
        (fun _ _ => none)).map
      (fun st => (Updater.update (mkUpdater { st.1 with stale := false } 7 8)
          (ParseOutcome.ok ⟨⟨{ url := "f" }, none, none⟩,
            [{ id := "e", updated := none }]⟩) st.2).map
        (fun res => res.1))) ≠ some (some ⟨[]⟩) := by
  constructor
  · rfl
  · intro h
    simp only [runPersist] at h
    revert h
    decide

theorem claim_C8_amended_witness :
    Updater.update (mkUpdater { (⟨"f", some 3, none, none, false, some 5⟩ :
          FeedForUpdate) with stale := false } 7 8)
        (ParseOutcome.ok ⟨⟨{ url := "f", updated := some 3 }, none, none⟩,
          [{ id := "e", updated := some 4 }]⟩)
        (persistEntries (fun _ _ => none)
          [⟨"f", { id := "e", updated := some 4 }, 5, some 6, 0⟩]) =
      some (⟨[]⟩, [StorageCall.getEntriesForUpdate [("f", "e")]]) :=
  claim_C8_amended ⟨"f", some 1, none, none, false, some 2⟩ 5 6 7 8
    (fun _ _ => none)
    ⟨⟨{ url := "f", updated := some 3 }, none, none⟩,
      [{ id := "e", updated := some 4 }]⟩ 3
    ⟨"f", some 3, none, none, false, some 5⟩
    (persistEntries (fun _ _ => none)
      [⟨"f", { id := "e", updated := some 4 }, 5, some 6, 0⟩])
    rfl (by decide) (by decide) rfl

end Reader
